import Mathlib

/-!
Shallow embedding of the computational core of the Voronoi Diagram Generator
(file `src/python/voronoi_diagram.py`): color pool construction, balanced
color distribution, nearest-site grid classification, and boundary segment
extraction.  Randomness is made explicit: the numpy random RGB draws become
an input stream, and the outputs of `random.sample` and `random.shuffle`
become parameters constrained by the documented guarantees of those library
functions.  Real (float) arithmetic is modelled exactly over ℚ.
-/

/-- An RGB color with components as exact rationals, normalized to [0,1].
Hex strings in the Python code are identified with their
`matplotlib.colors.to_rgb` image, i.e. the triple of channel values divided
by 255; this identification is a bijection on hex strings. -/
structure RGB where
  r : ℚ
  g : ℚ
  b : ℚ
deriving DecidableEq, Repr

/-- The hex color `#000000`. -/
def black : RGB := ⟨0, 0, 0⟩

/-- The hex color `#FFFFFF`. -/
def white : RGB := ⟨1, 1, 1⟩

/-- The fallback hex color `#808080`; `to_rgb` gives each channel 128/255. -/
def gray : RGB := ⟨128/255, 128/255, 128/255⟩

/-- Squared Euclidean distance between two colors in normalized RGB space
(the code compares `np.sqrt` of this sum against the threshold; squaring
both sides gives an equivalent comparison since both are nonnegative). -/
def dist2 (a b : RGB) : ℚ := (a.r - b.r)^2 + (a.g - b.g)^2 + (a.b - b.b)^2

/-- Minimum distance in normalized RGB space (`threshold = 0.1` in
`generate_unique_color`). -/
def threshold : ℚ := 1/10

/-- Predicate from the inner loop of `generate_unique_color`: the candidate
is too close to some existing color.  The code tests
`sqrt(dist2) < threshold`, which is equivalent to `dist2 < threshold^2`. -/
def tooClose (c : RGB) (existing : List RGB) : Bool :=
  existing.any fun e => decide (dist2 c e < threshold^2)

/-- Hex formatting of a candidate: each channel is `int(c*255)`, which for
nonnegative floats is the floor; `to_rgb` of the resulting hex string then
divides by 255. -/
def quantize (c : RGB) : RGB :=
  ⟨(⌊255 * c.r⌋ : ℚ) / 255, (⌊255 * c.g⌋ : ℚ) / 255, (⌊255 * c.b⌋ : ℚ) / 255⟩

/-- Loop body of `generate_unique_color`: try candidates in order; return
the hex form of the first candidate not too close to any existing color;
if all attempts fail, return the fallback gray. -/
def guAux : List RGB → List RGB → RGB
  | [], _ => gray
  | c :: rest, existing =>
    if tooClose c existing then guAux rest existing else quantize c

/-- The function `generate_unique_color(existing_colors)`: up to
`max_attempts = 100` random candidates are drawn from the stream. -/
def generate_unique_color (stream : ℕ → RGB) (existing : List RGB) : RGB :=
  guAux ((List.range 100).map stream) existing

/-- Color pool construction: start from `['#000000', '#FFFFFF']` and run
`num_colors - 2` iterations, each appending
`generate_unique_color(color_pool)`.  The argument `rand k` is the random
candidate stream used in iteration `k`. -/
def build_color_pool (rand : ℕ → ℕ → RGB) (num_colors : ℕ) : List RGB :=
  (List.range (num_colors - 2)).foldl
    (fun pool k => pool ++ [generate_unique_color (rand k) pool])
    [black, white]

/-- Base part of the color distribution: for each color index `i < K`,
`colors_per_point` copies of `i`, in increasing order of `i` (the code
extends the list color by color, at the level of pool entries). -/
def base_assignment (num_colors colors_per_point : ℕ) : List ℕ :=
  (List.range num_colors).flatMap fun i => List.replicate colors_per_point i

/-- Index-level form of the color distribution built by `generate_voronoi`
before shuffling: base part plus, when the remainder is positive, one extra
entry for each index in `extra_colors = random.sample(range(K), remainder)`.
The shuffle is modelled separately as an arbitrary permutation of this
list. -/
def color_assignment (num_points num_colors : ℕ) (extra_colors : List ℕ) : List ℕ :=
  base_assignment num_colors (num_points / num_colors) ++
    (if num_points % num_colors > 0 then extra_colors else [])

/-- Python dict construction `{color: i for i, color in enumerate(pool)}`
starting the enumeration at `k`: later occurrences of an equal key
overwrite earlier ones, so lookup returns the largest matching index. -/
def dictIndex : List RGB → ℕ → RGB → Option ℕ
  | [], _, _ => none
  | c :: rest, k, target =>
    match dictIndex rest (k+1) target with
    | some j => some j
    | none => if target = c then some k else none

/-- The mapping `color_to_index[color]`; keys absent from the dict do not
occur in the program (every site color is a pool entry), so a default of 0
is returned for them in the model. -/
def color_to_index (pool : List RGB) (c : RGB) : ℕ := (dictIndex pool 0 c).getD 0

/-- Sample coordinate `np.linspace(0, 10, G)[j] = 10*j/(G-1)`: G evenly
spaced values inclusive of both bounds 0 and 10. -/
def sample_x (G j : ℕ) : ℚ := 10 * j / ((G:ℚ) - 1)

/-- Sample point of grid cell (i, j): by the meshgrid/ravel layout, flat
index `i*G + j` carries the point `(x[j], y[i])`. -/
def sample_point (G i j : ℕ) : ℚ × ℚ := (sample_x G j, sample_x G i)

/-- Squared Euclidean distance in the plane, as computed by
`np.sum((points - grid_point)**2, axis=1)`. -/
def dist2p (a b : ℚ × ℚ) : ℚ := (a.1 - b.1)^2 + (a.2 - b.2)^2

/-- Accumulator loop of `np.argmin`: `best` is the index of the least value
seen so far, `bestd` that value, `k` the index of the head of the remaining
list; a strictly smaller value is required to displace the current best, so
the first occurrence of the minimum wins. -/
def argminAux : List ℚ → ℕ → ℕ → ℚ → ℕ
  | [], _, best, _ => best
  | d :: rest, k, best, bestd =>
    if d < bestd then argminAux rest (k+1) k d
    else argminAux rest (k+1) best bestd

/-- Model of `np.argmin` on a list of values: index of the first occurrence
of the minimum (0 on the empty list, which does not occur in the program). -/
def np_argmin : List ℚ → ℕ
  | [] => 0
  | d :: rest => argminAux rest 1 0 d

/-- Entry `index_grid[i][j]`: id of the site closest to the sample point of
cell (i, j), computed as `np.argmin(distances)`. -/
def index_grid (points : List (ℚ × ℚ)) (G i j : ℕ) : ℕ :=
  np_argmin (points.map fun p => dist2p p (sample_point G i j))

/-- Entry `color_grid[i][j] = color_to_index[colors[closest_point_idx]]`,
where `colors` is the per-site list of pool colors produced by the
distributor and shuffle. -/
def color_grid (points : List (ℚ × ℚ)) (pool : List RGB) (colors : List RGB)
    (G i j : ℕ) : ℕ :=
  color_to_index pool (colors.getD (index_grid points G i j) black)

/-- A boundary line segment, given by its two endpoints in working-area
coordinates. -/
structure Seg where
  p1 : ℚ × ℚ
  p2 : ℚ × ℚ
deriving DecidableEq, Repr

/-- Spacing used by the boundary loop: `dx = dy = 10 / grid_size`. -/
def cellWidth (G : ℕ) : ℚ := 10 / (G:ℚ)

/-- Segment emitted when `index_grid[i][j] != index_grid[i][j+1]`: from
`(j*dx, i*dy)` to `((j+1)*dx, i*dy)`. -/
def hseg (G i j : ℕ) : Seg :=
  ⟨((j:ℚ) * cellWidth G, (i:ℚ) * cellWidth G),
   (((j:ℚ)+1) * cellWidth G, (i:ℚ) * cellWidth G)⟩

/-- Segment emitted when `index_grid[i][j] != index_grid[i+1][j]`: from
`(j*dx, i*dy)` to `(j*dx, (i+1)*dy)`. -/
def vseg (G i j : ℕ) : Seg :=
  ⟨((j:ℚ) * cellWidth G, (i:ℚ) * cellWidth G),
   ((j:ℚ) * cellWidth G, ((i:ℚ)+1) * cellWidth G)⟩

/-- Segments appended while the scan visits cell (i, j): the horizontal
check comes before the vertical check. -/
def cell_segs (idx : ℕ → ℕ → ℕ) (G i j : ℕ) : List Seg :=
  (if idx i j ≠ idx i (j+1) then [hseg G i j] else []) ++
  (if idx i j ≠ idx (i+1) j then [vseg G i j] else [])

/-- The boundary extraction double loop
`for i in range(G-1): for j in range(G-1): ...`, appending to a single
list. -/
def boundary_segments (idx : ℕ → ℕ → ℕ) (G : ℕ) : List Seg :=
  (List.range (G-1)).foldl
    (fun acc i =>
      (List.range (G-1)).foldl (fun acc2 j => acc2 ++ cell_segs idx G i j) acc)
    []

/-- Row-major list of scanned cells (i, j), i the outer loop. -/
def cells (G : ℕ) : List (ℕ × ℕ) :=
  (List.range (G-1)).flatMap fun i => (List.range (G-1)).map fun j => (i, j)

/-- Clamping at entry: `num_colors = min(int(num_colors), num_points)`. -/
def effective_colors (num_points num_colors : ℕ) : ℕ := min num_colors num_points

/-- The part of one `generate_voronoi` invocation that fixes the published
color data: the color pool variable and the index-level color distribution
(the grids and boundary list are the pointwise functions above applied to
these outputs and the random site list).  No parameter validation is
performed anywhere on this path. -/
def regenerate (num_points num_colors : ℕ) (rand : ℕ → ℕ → RGB)
    (extra_colors : List ℕ) : List RGB × List ℕ :=
  let K := effective_colors num_points num_colors
  (build_color_pool rand K, color_assignment num_points K extra_colors)

/-- Candidate components drawn by `np.random.rand` lie in [0,1). -/
def unitRange (c : RGB) : Prop :=
  0 ≤ c.r ∧ c.r < 1 ∧ 0 ≤ c.g ∧ c.g < 1 ∧ 0 ≤ c.b ∧ c.b < 1

/-! ### Helper lemmas: the attempt loop of `generate_unique_color` -/

theorem tooClose_eq_false_iff (c : RGB) (ex : List RGB) :
    tooClose c ex = false ↔ ∀ e ∈ ex, threshold^2 ≤ dist2 c e := by
  simp [tooClose, not_lt]

/-- Behaviour of the attempt loop on an arbitrary candidate list: either the
first acceptable candidate (all earlier ones too close) is returned in hex
form, or every candidate is too close and the fallback gray is returned. -/
theorem guAux_spec (ex : List RGB) : ∀ l : List RGB,
    (∃ k, k < l.length ∧ (∀ t, t < k → tooClose (l.getD t black) ex = true) ∧
      tooClose (l.getD k black) ex = false ∧
      guAux l ex = quantize (l.getD k black)) ∨
    ((∀ t, t < l.length → tooClose (l.getD t black) ex = true) ∧
      guAux l ex = gray) := by
  intro l
  induction l with
  | nil => exact Or.inr ⟨fun t ht => absurd ht (by simp), rfl⟩
  | cons c rest ih =>
    by_cases h : tooClose c ex
    · have hg : guAux (c :: rest) ex = guAux rest ex := by simp [guAux, h]
      rcases ih with ⟨k, hk, hpre, hnc, heq⟩ | ⟨hall, heq⟩
      · refine Or.inl ⟨k + 1, by simpa using hk, ?_, by simpa using hnc, by simp [hg, heq]⟩
        intro t ht
        cases t with
        | zero => simpa using h
        | succ t => simpa using hpre t (by omega)
      · refine Or.inr ⟨?_, by simp [hg, heq]⟩
        intro t ht
        cases t with
        | zero => simpa using h
        | succ t => simpa using hall t (by simpa using ht)
    · rw [Bool.not_eq_true] at h
      exact Or.inl ⟨0, by simp, fun t ht => absurd ht (by omega), by simpa using h,
        by simp [guAux, h]⟩

theorem getD_range_map (f : ℕ → RGB) (n t : ℕ) (ht : t < n) :
    ((List.range n).map f).getD t black = f t := by
  rw [List.getD_eq_getElem?_getD]
  simp [List.getElem?_range, ht]

/-- Spec of `generate_unique_color` in terms of the candidate stream. -/
theorem generate_unique_color_spec (stream : ℕ → RGB) (existing : List RGB) :
    (∃ i, i < 100 ∧ (∀ t, t < i → tooClose (stream t) existing = true) ∧
      tooClose (stream i) existing = false ∧
      generate_unique_color stream existing = quantize (stream i)) ∨
    ((∀ i, i < 100 → tooClose (stream i) existing = true) ∧
      generate_unique_color stream existing = gray) := by
  have h := guAux_spec existing ((List.range 100).map stream)
  simp only [List.length_map, List.length_range] at h
  rcases h with ⟨k, hk, hpre, hnc, heq⟩ | ⟨hall, heq⟩
  · refine Or.inl ⟨k, hk, ?_, ?_, ?_⟩
    · intro t ht
      have := hpre t ht
      rwa [getD_range_map stream 100 t (by omega)] at this
    · rwa [getD_range_map stream 100 k hk] at hnc
    · rw [generate_unique_color, heq, getD_range_map stream 100 k hk]
  · refine Or.inr ⟨?_, heq⟩
    intro i hi
    have := hall i hi
    rwa [getD_range_map stream 100 i hi] at this

theorem tooClose_eq_true_iff (c : RGB) (ex : List RGB) :
    tooClose c ex = true ↔ ∃ e ∈ ex, dist2 c e < threshold^2 := by
  simp [tooClose]

/-- A constant candidate stream whose candidate is acceptable returns its
hex form on the first attempt. -/
theorem generate_unique_color_const (c : RGB) (ex : List RGB)
    (h : tooClose c ex = false) :
    generate_unique_color (fun _ => c) ex = quantize c := by
  rcases generate_unique_color_spec (fun _ => c) ex with ⟨i, _, _, _, heq⟩ | ⟨hall, _⟩
  · exact heq
  · exact absurd (hall 0 (by omega)) (by simp [h])

/-- A constant candidate stream whose candidate is too close exhausts the
budget and falls back to gray. -/
theorem generate_unique_color_const_fail (c : RGB) (ex : List RGB)
    (h : tooClose c ex = true) :
    generate_unique_color (fun _ => c) ex = gray := by
  rcases generate_unique_color_spec (fun _ => c) ex with ⟨i, hi, _, hnc, _⟩ | ⟨_, heq⟩
  · rw [h] at hnc; exact absurd hnc (by simp)
  · exact heq

/-- Each channel moves by less than 1/255 under hex quantization. -/
theorem sub_quantize_bounds (x : ℚ) :
    0 ≤ x - (⌊255 * x⌋ : ℚ)/255 ∧ x - (⌊255 * x⌋ : ℚ)/255 < 1/255 := by
  have h1 : ((⌊255 * x⌋ : ℚ)) ≤ 255 * x := Int.floor_le _
  have h2 : 255 * x < ⌊255 * x⌋ + 1 := Int.lt_floor_add_one _
  exact ⟨by linarith, by linarith⟩

/-- The squared displacement caused by hex quantization is below
`3/255² = (√3/255)²`. -/
theorem dist2_quantize_lt (c : RGB) : dist2 c (quantize c) < 3 / 255^2 := by
  obtain ⟨h1r, h2r⟩ := sub_quantize_bounds c.r
  obtain ⟨h1g, h2g⟩ := sub_quantize_bounds c.g
  obtain ⟨h1b, h2b⟩ := sub_quantize_bounds c.b
  have hr : (c.r - (⌊255 * c.r⌋ : ℚ)/255)^2 < (1/255)^2 := by nlinarith
  have hg : (c.g - (⌊255 * c.g⌋ : ℚ)/255)^2 < (1/255)^2 := by nlinarith
  have hb : (c.b - (⌊255 * c.b⌋ : ℚ)/255)^2 < (1/255)^2 := by nlinarith
  have h3 : (3:ℚ) / 255^2 = (1/255)^2 + (1/255)^2 + (1/255)^2 := by norm_num
  simp only [dist2, quantize, h3]
  linarith

/-- Hex form of the candidate (203/2000, 0, 0): the red channel is
`int(255 * 203/2000) = int(25.88) = 25`, stored as 25/255 = 5/51. -/
theorem quantize_near_tenth : quantize ⟨203/2000, 0, 0⟩ = ⟨5/51, 0, 0⟩ := by
  have h1 : ⌊(255:ℚ) * (203/2000)⌋ = 25 := by
    rw [Int.floor_eq_iff]
    norm_num
  simp [quantize, h1]
  norm_num

/-- **C7.** `generate_unique_color` makes at most 100 candidate attempts
and always returns a color: either (the hex form of) a candidate whose
distance from every existing color is at least the threshold 0.1, or, when
every one of the 100 attempts is too close to some existing color, the
deterministic fallback mid-gray `#808080`.  The function is total: budget
exhaustion degrades to the fallback, it never raises. -/
theorem generate_unique_color_total (stream : ℕ → RGB) (existing : List RGB) :
    (∃ i, i < 100 ∧ (∀ e ∈ existing, threshold^2 ≤ dist2 (stream i) e) ∧
      generate_unique_color stream existing = quantize (stream i)) ∨
    ((∀ i, i < 100 → ∃ e ∈ existing, dist2 (stream i) e < threshold^2) ∧
      generate_unique_color stream existing = gray) := by
  rcases generate_unique_color_spec stream existing with ⟨i, hi, _, hnc, heq⟩ | ⟨hall, heq⟩
  · exact Or.inl ⟨i, hi, (tooClose_eq_false_iff _ _).mp hnc, heq⟩
  · exact Or.inr ⟨fun i hi => (tooClose_eq_true_iff _ _).mp (hall i hi), heq⟩

/-- Witness for C7 at a concrete input (no existing colors, constant white
stream). -/
theorem generate_unique_color_total_witness :
    (∃ i, i < 100 ∧ (∀ e ∈ ([] : List RGB), threshold^2 ≤ dist2 white e) ∧
      generate_unique_color (fun _ => white) [] = quantize white) ∨
    ((∀ i, i < 100 → ∃ e ∈ ([] : List RGB), dist2 white e < threshold^2) ∧
      generate_unique_color (fun _ => white) [] = gray) :=
  generate_unique_color_total (fun _ => white) []

/-- **C10.** The distinctness check of `generate_unique_color` is performed
on the pre-quantization candidate, while the returned color is its
8-bit-per-channel hex quantization.  The guarantee actually maintained is:
every accepted candidate is, before quantization, at squared distance at
least `0.1²` from every existing pool color, and quantization moves it by
squared distance less than `3/255²` (i.e. by Euclidean distance less than
`√3/255`), so stored pool colors may end up closer than 0.1 — by at most
`√3/255` — as the final conjuncts exhibit on a concrete accepted candidate
whose stored form is strictly within 0.1 of black. -/
theorem quantization_guarantee :
    (∀ (stream : ℕ → RGB) (existing : List RGB),
      (generate_unique_color stream existing = gray ∧
        ∀ i, i < 100 → tooClose (stream i) existing = true) ∨
      (∃ i, i < 100 ∧
        generate_unique_color stream existing = quantize (stream i) ∧
        (∀ e ∈ existing, threshold^2 ≤ dist2 (stream i) e) ∧
        dist2 (stream i) (quantize (stream i)) < 3 / 255^2)) ∧
    generate_unique_color (fun _ => ⟨203/2000, 0, 0⟩) [black] = ⟨5/51, 0, 0⟩ ∧
    threshold^2 ≤ dist2 ⟨203/2000, 0, 0⟩ black ∧
    dist2 ⟨5/51, 0, 0⟩ black < threshold^2 := by
  refine ⟨?_, ?_, ?_, ?_⟩
  · intro stream existing
    rcases generate_unique_color_spec stream existing with ⟨i, hi, _, hnc, heq⟩ | ⟨hall, heq⟩
    · exact Or.inr ⟨i, hi, heq, (tooClose_eq_false_iff _ _).mp hnc, dist2_quantize_lt _⟩
    · exact Or.inl ⟨heq, hall⟩
  · have hc : tooClose ⟨203/2000, 0, 0⟩ [black] = false := by
      norm_num [tooClose, dist2, threshold, black]
    rw [generate_unique_color_const _ _ hc, quantize_near_tenth]
  · norm_num [dist2, threshold, black]
  · norm_num [dist2, threshold, black]

/-! ### Helper lemmas: color pool construction -/

theorem getD_concat_length (l : List RGB) (x d : RGB) : (l ++ [x]).getD l.length d = x := by
  rw [List.getD_eq_getElem?_getD]
  simp

theorem getD_mem (l : List RGB) (n : ℕ) (h : n < l.length) (d : RGB) : l.getD n d ∈ l := by
  rw [List.getD_eq_getElem?_getD]
  simp [List.getElem?_eq_getElem h]

/-- Invariant of a pool entry: it is the fallback gray, or the hex form of
a candidate that was at distance at least the threshold from every earlier
pool entry when it was accepted. -/
def pool_entry_ok (pool : List RGB) (j : ℕ) : Prop :=
  pool.getD j black = gray ∨
  ∃ c, pool.getD j black = quantize c ∧
    ∀ t, t < j → threshold^2 ≤ dist2 c (pool.getD t black)

/-- The pool-building fold preserves lengths, earlier entries, and the
entry invariant for every appended color. -/
theorem build_foldl_invariant (rand : ℕ → ℕ → RGB) :
    ∀ (l : List ℕ) (pool : List RGB),
      (∀ j, 2 ≤ j → j < pool.length → pool_entry_ok pool j) →
      (l.foldl (fun p k => p ++ [generate_unique_color (rand k) p]) pool).length
          = pool.length + l.length ∧
      (∀ j, j < pool.length →
        (l.foldl (fun p k => p ++ [generate_unique_color (rand k) p]) pool).getD j black
          = pool.getD j black) ∧
      (∀ j, 2 ≤ j →
        j < (l.foldl (fun p k => p ++ [generate_unique_color (rand k) p]) pool).length →
        pool_entry_ok (l.foldl (fun p k => p ++ [generate_unique_color (rand k) p]) pool) j) := by
  intro l
  induction l with
  | nil => exact fun pool hinv => ⟨by simp, fun j _ => rfl, by simpa using hinv⟩
  | cons k rest ih =>
    intro pool hinv
    set c := generate_unique_color (rand k) pool with hc
    have hnew : pool_entry_ok (pool ++ [c]) pool.length := by
      rcases generate_unique_color_spec (rand k) pool with ⟨i, _, _, hnc, heq⟩ | ⟨_, heq⟩
      · refine Or.inr ⟨rand k i, ?_, ?_⟩
        · rw [getD_concat_length, hc, heq]
        · intro t ht
          rw [List.getD_append _ _ _ _ ht]
          exact (tooClose_eq_false_iff _ _).mp hnc _ (getD_mem pool t ht black)
      · exact Or.inl (by rw [getD_concat_length, hc, heq])
    have hinv2 : ∀ j, 2 ≤ j → j < (pool ++ [c]).length → pool_entry_ok (pool ++ [c]) j := by
      intro j hj2 hj
      simp only [List.length_append, List.length_cons, List.length_nil] at hj
      rcases Nat.lt_or_ge j pool.length with hlt | hge
      · rcases hinv j hj2 hlt with hgray | ⟨d, hd, hfar⟩
        · exact Or.inl (by rwa [List.getD_append _ _ _ _ hlt])
        · refine Or.inr ⟨d, by rwa [List.getD_append _ _ _ _ hlt], ?_⟩
          intro t ht
          rw [List.getD_append _ _ _ _ (by omega)]
          exact hfar t ht
      · have hj' : j = pool.length := by omega
        rw [hj']
        exact hnew
    obtain ⟨hlen, hstable, hok⟩ := ih (pool ++ [c]) hinv2
    simp only [List.foldl_cons]
    rw [← hc]
    refine ⟨by simp at hlen ⊢; omega, ?_, hok⟩
    intro j hj
    rw [hstable j (by simp; omega), List.getD_append _ _ _ _ hj]

/-- **C6** (amended).  For every K ≥ 2 the pool is an ordered list of
exactly K colors with position 0 pure black and position 1 pure white; every
later entry is either the fallback gray or the 8-bit hex quantization of a
candidate whose pre-quantization squared distance from every earlier pool
entry is at least `0.1²`.  (The claim as frozen asserts the *stored* entries
are pairwise at distance at least 0.1; that fails because the check runs
before quantization — see the counterexample — and the bound that survives
for stored entries is `0.1 − √3/255`.) -/
theorem color_pool_structure (rand : ℕ → ℕ → RGB) (K : ℕ) (hK : 2 ≤ K) :
    (build_color_pool rand K).length = K ∧
    (build_color_pool rand K).getD 0 black = black ∧
    (build_color_pool rand K).getD 1 black = white ∧
    ∀ j, 2 ≤ j → j < K →
      (build_color_pool rand K).getD j black = gray ∨
      ∃ c, (build_color_pool rand K).getD j black = quantize c ∧
        ∀ t, t < j → threshold^2 ≤ dist2 c ((build_color_pool rand K).getD t black) := by
  have hbase : ∀ j, 2 ≤ j → j < ([black, white] : List RGB).length →
      pool_entry_ok [black, white] j := by
    intro j hj2 hj
    simp at hj
    omega
  obtain ⟨hlen, hstable, hok⟩ :=
    build_foldl_invariant rand (List.range (K - 2)) [black, white] hbase
  rw [build_color_pool]
  have hlen' : ((List.range (K - 2)).foldl
      (fun p k => p ++ [generate_unique_color (rand k) p]) [black, white]).length = K := by
    simp at hlen
    omega
  refine ⟨hlen', ?_, ?_, ?_⟩
  · rw [hstable 0 (by simp)]; rfl
  · rw [hstable 1 (by simp)]; rfl
  · intro j hj2 hj
    exact hok j hj2 (by omega)

/-- Witness for C6 at K = 2 (no random colors needed). -/
theorem color_pool_structure_witness :
    (build_color_pool (fun _ _ => black) 2).length = 2 ∧
    (build_color_pool (fun _ _ => black) 2).getD 0 black = black ∧
    (build_color_pool (fun _ _ => black) 2).getD 1 black = white ∧
    ∀ j, 2 ≤ j → j < 2 →
      (build_color_pool (fun _ _ => black) 2).getD j black = gray ∨
      ∃ c, (build_color_pool (fun _ _ => black) 2).getD j black = quantize c ∧
        ∀ t, t < j →
          threshold^2 ≤ dist2 c ((build_color_pool (fun _ _ => black) 2).getD t black) :=
  color_pool_structure (fun _ _ => black) 2 (by norm_num)

/-- Counterexample to C6 as frozen: with candidate stream constantly
(203/2000, 0, 0), the K = 3 pool stores (5/51, 0, 0) as its third entry.
The candidate passed the check against black (distance 0.1015 ≥ 0.1), but
its stored hex form lies at distance 25/255 < 0.1 from black, and neither
entry of the violating pair equals the fallback gray, so the claimed
pairwise-0.1 property (with only gray entries excepted) is false. -/
theorem color_pool_threshold_violated :
    build_color_pool (fun _ _ => ⟨203/2000, 0, 0⟩) 3 = [black, white, ⟨5/51, 0, 0⟩] ∧
    dist2 black ⟨5/51, 0, 0⟩ < threshold^2 ∧
    (⟨5/51, 0, 0⟩ : RGB) ≠ gray ∧ black ≠ gray := by
  have hc : tooClose ⟨203/2000, 0, 0⟩ [black, white] = false := by
    norm_num [tooClose, dist2, threshold, black, white]
  refine ⟨?_, by norm_num [dist2, black, threshold], ?_, ?_⟩
  · show build_color_pool _ 3 = _
    rw [build_color_pool]
    rw [show (3:ℕ) - 2 = 1 from rfl, List.range_succ, List.range_zero]
    simp only [List.nil_append, List.foldl_cons, List.foldl_nil]
    rw [generate_unique_color_const _ _ hc, quantize_near_tenth]
    rfl
  · simp only [gray, ne_eq, RGB.mk.injEq, not_and]
    intro h
    norm_num at h
  · simp only [black, gray, ne_eq, RGB.mk.injEq, not_and]
    intro h
    norm_num at h


/-! ### Helper lemmas: color distribution -/

theorem count_filter_eq (p : ℕ → Bool) (l : List ℕ) (a : ℕ) :
    (l.filter p).count a = if p a then l.count a else 0 := by
  simp only [List.count_eq_countP, List.countP_filter]
  by_cases hpa : p a
  · rw [if_pos hpa]
    apply List.countP_congr
    intro x hx
    constructor
    · intro h
      simp only [Bool.and_eq_true, beq_iff_eq] at h ⊢
      exact h.1
    · intro h
      simp only [beq_iff_eq] at h
      subst h
      simp [hpa]
  · rw [if_neg hpa]
    rw [List.countP_eq_zero]
    intro x hx
    simp only [Bool.and_eq_true, beq_iff_eq, not_and]
    intro h
    subst h
    exact fun hc => hpa hc

theorem length_base_assignment (K b : ℕ) : (base_assignment K b).length = K * b := by
  rw [base_assignment]
  induction K with
  | zero => simp
  | succ K ih =>
    rw [List.range_succ, List.flatMap_append]
    simp only [List.length_append, List.flatMap_cons, List.flatMap_nil, List.append_nil,
      List.length_replicate, ih]
    ring

theorem count_base_assignment (K b i : ℕ) :
    (base_assignment K b).count i = if i < K then b else 0 := by
  rw [base_assignment]
  induction K with
  | zero => simp
  | succ K ih =>
    rw [List.range_succ, List.flatMap_append, List.count_append]
    simp only [List.flatMap_cons, List.flatMap_nil, List.append_nil, List.count_replicate,
      beq_iff_eq, ih]
    split_ifs <;> omega

theorem mem_base_assignment (K b v : ℕ) (h : v ∈ base_assignment K b) : v < K := by
  rw [base_assignment] at h
  simp only [List.mem_flatMap, List.mem_range] at h
  obtain ⟨i, hi, hv⟩ := h
  rw [List.eq_of_mem_replicate hv]
  exact hi

/-- Core counting facts for the color distribution, shared by the theorems
for C3 and C8.  The hypotheses on `extra` are the guarantees of
`random.sample(range(K), N % K)` (distinct indices below K, exactly the
remainder many), and `s` is any output of `random.shuffle` on the built
list, i.e. any permutation of it. -/
theorem distribution_counts (N K : ℕ) (extra s : List ℕ)
    (hK : 0 < K) (hKN : K ≤ N)
    (hnd : extra.Nodup) (hlen : extra.length = N % K) (hmem : ∀ i ∈ extra, i < K)
    (hperm : s.Perm (color_assignment N K extra)) :
    s.length = N ∧
    (∀ v ∈ s, v < K) ∧
    (∀ i, i < K → s.count i = N / K ∨ s.count i = N / K + 1) ∧
    ((List.range K).filter (fun i => s.count i = N / K + 1)).length = N % K ∧
    (N % K = 0 → ∀ i, i < K → s.count i = N / K) := by
  have hextra_count : ∀ i, extra.count i = if i ∈ extra then 1 else 0 := by
    intro i
    by_cases hm : i ∈ extra
    · rw [if_pos hm, List.count_eq_one_of_mem hnd hm]
    · rw [if_neg hm, List.count_eq_zero_of_not_mem hm]
  have hcount : ∀ i, s.count i
      = (if i < K then N / K else 0) + (if i ∈ extra then 1 else 0) := by
    intro i
    rw [hperm.count_eq, color_assignment, List.count_append, count_base_assignment]
    congr 1
    by_cases hr : N % K > 0
    · rw [if_pos hr, hextra_count]
    · have hext : extra = [] := List.length_eq_zero.mp (by omega)
      subst hext
      simp
  refine ⟨?_, ?_, ?_, ?_, ?_⟩
  · have hlen2 : (if N % K > 0 then extra else ([] : List ℕ)).length = N % K := by
      by_cases hr : N % K > 0
      · rw [if_pos hr, hlen]
      · rw [if_neg hr]
        simp only [List.length_nil]
        omega
    rw [hperm.length_eq, color_assignment, List.length_append, length_base_assignment, hlen2]
    exact Nat.div_add_mod N K
  · intro v hv
    rw [hperm.mem_iff, color_assignment, List.mem_append] at hv
    rcases hv with hv | hv
    · exact mem_base_assignment _ _ _ hv
    · by_cases hr : N % K > 0
      · rw [if_pos hr] at hv
        exact hmem v hv
      · rw [if_neg hr] at hv
        simp at hv
  · intro i hi
    rw [hcount i, if_pos hi]
    by_cases hm : i ∈ extra
    · exact Or.inr (by rw [if_pos hm])
    · exact Or.inl (by rw [if_neg hm, Nat.add_zero])
  · have hcongr : (List.range K).filter (fun i => s.count i = N / K + 1)
        = (List.range K).filter (fun i => i ∈ extra) := by
      apply List.filter_congr
      intro a ha
      rw [List.mem_range] at ha
      rw [hcount a, if_pos ha]
      by_cases hm : a ∈ extra
      · simp [hm]
      · simp [hm]
    rw [hcongr, ← hlen]
    have hpermf : ((List.range K).filter (fun i => i ∈ extra)).Perm extra := by
      rw [List.perm_iff_count]
      intro a
      rw [count_filter_eq, hextra_count]
      by_cases hm : a ∈ extra
      · rw [if_pos (by simpa using hm), if_pos hm]
        exact List.count_eq_one_of_mem (List.nodup_range K) (List.mem_range.mpr (hmem a hm))
      · rw [if_neg (by simpa using hm), if_neg hm]
    exact hpermf.length_eq
  · intro hr i hi
    have hext : extra = [] := List.length_eq_zero.mp (by omega)
    subst hext
    rw [hcount i, if_pos hi]
    simp

/-- **C3.** For every N sites and effective pool size K ≤ N, the (shuffled)
color assignment is a sequence of exactly N color-pool indices in which
every index in [0,K) occurs either N/K or N/K + 1 times; the number of
indices occurring the extra time is exactly N % K (the extra indices being
chosen without replacement, per the `random.sample` contract encoded in the
hypotheses on `extra`); and when N % K = 0 the extra-selection step
contributes nothing: every index occurs exactly N/K times. -/
theorem color_distribution_balanced (N K : ℕ) (extra s : List ℕ)
    (hK : 0 < K) (hKN : K ≤ N)
    (hnd : extra.Nodup) (hlen : extra.length = N % K) (hmem : ∀ i ∈ extra, i < K)
    (hperm : s.Perm (color_assignment N K extra)) :
    s.length = N ∧
    (∀ v ∈ s, v < K) ∧
    (∀ i, i < K → s.count i = N / K ∨ s.count i = N / K + 1) ∧
    ((List.range K).filter (fun i => s.count i = N / K + 1)).length = N % K ∧
    (N % K = 0 → ∀ i, i < K → s.count i = N / K) :=
  distribution_counts N K extra s hK hKN hnd hlen hmem hperm

/-- Witness for C3 at N = 5, K = 2, extra sample [1], shuffle output
[1,0,1,0,1]. -/
theorem color_distribution_balanced_witness :
    ([1,0,1,0,1] : List ℕ).length = 5 ∧
    (∀ v ∈ ([1,0,1,0,1] : List ℕ), v < 2) ∧
    (∀ i, i < 2 →
      ([1,0,1,0,1] : List ℕ).count i = 5 / 2 ∨ ([1,0,1,0,1] : List ℕ).count i = 5 / 2 + 1) ∧
    ((List.range 2).filter
      (fun i => ([1,0,1,0,1] : List ℕ).count i = 5 / 2 + 1)).length = 5 % 2 ∧
    (5 % 2 = 0 → ∀ i, i < 2 → ([1,0,1,0,1] : List ℕ).count i = 5 / 2) :=
  color_distribution_balanced 5 2 [1] [1,0,1,0,1] (by norm_num) (by norm_num)
    (by decide) (by decide) (by decide) (by decide)

/-- **C8.** The effective palette size used by the pipeline is
`min(num_colors, num_points)`, fixed by clamping at entry (not an error),
and the distributor invariants hold with respect to this effective K.  The
concrete instance N = 10, raw K = 20 (effective K = 10) is in the
witness. -/
theorem effective_palette_clamp (N Kraw : ℕ) (rand : ℕ → ℕ → RGB) (extra s : List ℕ)
    (hN : 0 < N) (hKraw : 0 < Kraw)
    (hnd : extra.Nodup) (hlen : extra.length = N % effective_colors N Kraw)
    (hmem : ∀ i ∈ extra, i < effective_colors N Kraw)
    (hperm : s.Perm (color_assignment N (effective_colors N Kraw) extra)) :
    effective_colors N Kraw = min Kraw N ∧
    effective_colors N Kraw ≤ N ∧
    (regenerate N Kraw rand extra).2 = color_assignment N (effective_colors N Kraw) extra ∧
    s.length = N ∧
    (∀ i, i < effective_colors N Kraw →
      s.count i = N / effective_colors N Kraw ∨
      s.count i = N / effective_colors N Kraw + 1) ∧
    ((List.range (effective_colors N Kraw)).filter
        (fun i => s.count i = N / effective_colors N Kraw + 1)).length
      = N % effective_colors N Kraw := by
  have h2 : effective_colors N Kraw ≤ N := min_le_right Kraw N
  have hK : 0 < effective_colors N Kraw := lt_min hKraw hN
  obtain ⟨hl, _, hc, hf, _⟩ :=
    distribution_counts N (effective_colors N Kraw) extra s hK h2 hnd hlen hmem hperm
  exact ⟨rfl, h2, rfl, hl, hc, hf⟩

/-- Witness for C8 at N = 10, raw K = 20: the effective palette size is 10
and the balanced counts hold for it. -/
theorem effective_palette_clamp_witness :
    effective_colors 10 20 = min 20 10 ∧
    effective_colors 10 20 ≤ 10 ∧
    (regenerate 10 20 (fun _ _ => black) []).2
      = color_assignment 10 (effective_colors 10 20) [] ∧
    (color_assignment 10 (effective_colors 10 20) []).length = 10 ∧
    (∀ i, i < effective_colors 10 20 →
      (color_assignment 10 (effective_colors 10 20) []).count i
          = 10 / effective_colors 10 20 ∨
      (color_assignment 10 (effective_colors 10 20) []).count i
          = 10 / effective_colors 10 20 + 1) ∧
    ((List.range (effective_colors 10 20)).filter
        (fun i => (color_assignment 10 (effective_colors 10 20) []).count i
          = 10 / effective_colors 10 20 + 1)).length
      = 10 % effective_colors 10 20 :=
  effective_palette_clamp 10 20 (fun _ _ => black) []
    (color_assignment 10 (effective_colors 10 20) [])
    (by norm_num) (by norm_num) (by decide) (by decide) (by decide)
    (List.Perm.refl _)

/-! ### Helper lemmas: nearest-site classification -/

theorem getD_mem_of_lt {α : Type} (l : List α) (n : ℕ) (h : n < l.length) (d : α) :
    l.getD n d ∈ l := by
  rw [List.getD_eq_getElem?_getD]
  simp [List.getElem?_eq_getElem h]

theorem getD_map_eq {α β : Type} (l : List α) (f : α → β) (m : ℕ) (h : m < l.length)
    (d : α) (d2 : β) : (l.map f).getD m d2 = f (l.getD m d) := by
  rw [List.getD_eq_getElem?_getD, List.getElem?_map, List.getD_eq_getElem?_getD,
    List.getElem?_eq_getElem h]
  simp

/-- Invariant of the `np.argmin` accumulator loop, phrased against a total
value function `f` that agrees with the remaining list beyond position `k`
and with the best-so-far data below `k`. -/
theorem argminAux_spec (f : ℕ → ℚ) :
    ∀ (ds : List ℚ) (k best : ℕ) (bestd : ℚ),
      best < k →
      f best = bestd →
      (∀ m, m < k → bestd ≤ f m) →
      (∀ m, m < k → f m = bestd → best ≤ m) →
      (∀ t, t < ds.length → f (k + t) = ds.getD t 0) →
      argminAux ds k best bestd < k + ds.length ∧
      (∀ m, m < k + ds.length → f (argminAux ds k best bestd) ≤ f m) ∧
      (∀ m, m < k + ds.length → f m = f (argminAux ds k best bestd) →
        argminAux ds k best bestd ≤ m) := by
  intro ds
  induction ds with
  | nil =>
    intro k best bestd hbk hfb hmin htie hcon
    rw [argminAux]
    refine ⟨by simpa using hbk, ?_, ?_⟩
    · intro m hm
      rw [hfb]
      exact hmin m (by simpa using hm)
    · intro m hm hfm
      exact htie m (by simpa using hm) (by rw [hfm, hfb])
  | cons d rest ih =>
    intro k best bestd hbk hfb hmin htie hcon
    have hfk : f k = d := by simpa using hcon 0 (by simp)
    have hcon' : ∀ t, t < rest.length → f (k + 1 + t) = rest.getD t 0 := by
      intro t ht
      have := hcon (t + 1) (by simpa using Nat.succ_lt_succ ht)
      rw [show k + (t + 1) = k + 1 + t by omega] at this
      simpa using this
    rw [argminAux]
    by_cases hd : d < bestd
    · rw [if_pos hd]
      have hmin' : ∀ m, m < k + 1 → d ≤ f m := by
        intro m hm
        rcases Nat.lt_or_ge m k with h | h
        · exact le_of_lt (lt_of_lt_of_le hd (hmin m h))
        · have : m = k := by omega
          rw [this, hfk]
      have htie' : ∀ m, m < k + 1 → f m = d → k ≤ m := by
        intro m hm hfm
        rcases Nat.lt_or_ge m k with h | h
        · exact absurd hfm (by have := hmin m h; intro he; rw [he] at this; exact absurd hd (not_lt.mpr this))
        · exact h
      obtain ⟨h1, h2, h3⟩ := ih (k + 1) k d (by omega) hfk hmin' htie' hcon'
      rw [show k + 1 + rest.length = k + (rest.length + 1) by omega] at h1 h2 h3
      exact ⟨by simpa using h1, by simpa using h2, by simpa using h3⟩
    · rw [if_neg hd]
      have hdge : bestd ≤ d := not_lt.mp hd
      have hmin' : ∀ m, m < k + 1 → bestd ≤ f m := by
        intro m hm
        rcases Nat.lt_or_ge m k with h | h
        · exact hmin m h
        · have : m = k := by omega
          rw [this, hfk]
          exact hdge
      have htie' : ∀ m, m < k + 1 → f m = bestd → best ≤ m := by
        intro m hm hfm
        rcases Nat.lt_or_ge m k with h | h
        · exact htie m h hfm
        · omega
      obtain ⟨h1, h2, h3⟩ := ih (k + 1) best bestd (by omega) hfb hmin' htie' hcon'
      rw [show k + 1 + rest.length = k + (rest.length + 1) by omega] at h1 h2 h3
      exact ⟨by simpa using h1, by simpa using h2, by simpa using h3⟩

/-- Specification of `np.argmin` on a nonempty list: the result indexes the
list, its value is minimal, and among positions of equal value it is the
least (numpy returns the first occurrence of the minimum). -/
theorem np_argmin_spec (ds : List ℚ) (h : ds ≠ []) :
    np_argmin ds < ds.length ∧
    (∀ m, m < ds.length → ds.getD (np_argmin ds) 0 ≤ ds.getD m 0) ∧
    (∀ m, m < ds.length → ds.getD m 0 = ds.getD (np_argmin ds) 0 → np_argmin ds ≤ m) := by
  match ds with
  | [] => exact absurd rfl h
  | d :: rest =>
    have hspec := argminAux_spec (fun m => (d :: rest).getD m 0) rest 1 0 d
      (by omega) (by simp) ?_ ?_ ?_
    · rw [np_argmin]
      rw [show 1 + rest.length = rest.length + 1 by omega] at hspec
      simpa using hspec
    · intro m hm
      have : m = 0 := by omega
      simp [this]
    · intro m _ _
      omega
    · intro t ht
      rw [show 1 + t = t + 1 by omega]
      simp

/-- **C2.** For every grid cell, the recorded site id indexes the site
list, it minimizes squared Euclidean distance from the sample point of the
cell to the site positions, on exact distance ties it is the lowest site
id, and for a fixed site set the classification is a function of the sample
point alone: two evaluations at the same sample point give the same id. -/
theorem nearest_site_classification (points : List (ℚ × ℚ)) (G i j : ℕ)
    (h : points ≠ []) :
    index_grid points G i j < points.length ∧
    (∀ k, k < points.length →
      dist2p (points.getD (index_grid points G i j) (0, 0)) (sample_point G i j)
        ≤ dist2p (points.getD k (0, 0)) (sample_point G i j)) ∧
    (∀ k, k < points.length →
      dist2p (points.getD k (0, 0)) (sample_point G i j)
        = dist2p (points.getD (index_grid points G i j) (0, 0)) (sample_point G i j) →
      index_grid points G i j ≤ k) ∧
    (∀ G2 i2 j2, sample_point G2 i2 j2 = sample_point G i j →
      index_grid points G2 i2 j2 = index_grid points G i j) := by
  have hne : points.map (fun p => dist2p p (sample_point G i j)) ≠ [] := by
    simpa using h
  obtain ⟨h1, h2, h3⟩ := np_argmin_spec (points.map fun p => dist2p p (sample_point G i j)) hne
  rw [List.length_map] at h1 h2 h3
  have hmap : ∀ m, m < points.length →
      (points.map fun p => dist2p p (sample_point G i j)).getD m 0
        = dist2p (points.getD m (0, 0)) (sample_point G i j) := by
    intro m hm
    exact getD_map_eq points _ m hm (0, 0) 0
  have hidx : index_grid points G i j
      = np_argmin (points.map fun p => dist2p p (sample_point G i j)) := rfl
  refine ⟨by rw [hidx]; exact h1, ?_, ?_, ?_⟩
  · intro k hk
    have := h2 k hk
    rwa [hmap k hk, hmap _ h1, ← hidx] at this
  · intro k hk heq
    apply h3 k hk
    rw [hmap k hk, hmap _ h1, ← hidx]
    exact heq
  · intro G2 i2 j2 hsp
    rw [index_grid, index_grid, hsp]

/-- Witness for C2: two sites (0,0) and (2,0) and the grid cell of an
11-point axis whose sample point (1,0) is exactly equidistant from both;
the theorem pins the classification to site id 0. -/
theorem nearest_site_classification_witness :
    index_grid [((0:ℚ), (0:ℚ)), (2, 0)] 11 0 1 < 2 ∧
    (∀ k, k < 2 →
      dist2p ([((0:ℚ), (0:ℚ)), (2, 0)].getD (index_grid [((0:ℚ), (0:ℚ)), (2, 0)] 11 0 1) (0, 0))
          (sample_point 11 0 1)
        ≤ dist2p ([((0:ℚ), (0:ℚ)), (2, 0)].getD k (0, 0)) (sample_point 11 0 1)) ∧
    (∀ k, k < 2 →
      dist2p ([((0:ℚ), (0:ℚ)), (2, 0)].getD k (0, 0)) (sample_point 11 0 1)
        = dist2p ([((0:ℚ), (0:ℚ)), (2, 0)].getD (index_grid [((0:ℚ), (0:ℚ)), (2, 0)] 11 0 1) (0, 0))
            (sample_point 11 0 1) →
      index_grid [((0:ℚ), (0:ℚ)), (2, 0)] 11 0 1 ≤ k) ∧
    (∀ G2 i2 j2, sample_point G2 i2 j2 = sample_point 11 0 1 →
      index_grid [((0:ℚ), (0:ℚ)), (2, 0)] G2 i2 j2
        = index_grid [((0:ℚ), (0:ℚ)), (2, 0)] 11 0 1) := by
  have h := nearest_site_classification [((0:ℚ), (0:ℚ)), (2, 0)] 11 0 1 (by simp)
  simpa using h

/-! ### Helper lemmas: color-to-index dictionary -/

theorem dictIndex_eq_none (c : RGB) :
    ∀ (l : List RGB) (k : ℕ), c ∉ l → dictIndex l k c = none := by
  intro l
  induction l with
  | nil => intro k _; rfl
  | cons x rest ih =>
    intro k hc
    rw [dictIndex, ih (k + 1) (fun hm => hc (List.mem_cons_of_mem x hm))]
    have hne : c ≠ x := fun he => hc (by rw [he]; exact List.mem_cons_self x rest)
    simp [hne]

theorem dictIndex_nodup :
    ∀ (l : List RGB), l.Nodup → ∀ (v k : ℕ), v < l.length →
      dictIndex l k (l.getD v black) = some (k + v) := by
  intro l
  induction l with
  | nil => intro _ v k hv; simp at hv
  | cons x rest ih =>
    intro hnd v k hv
    rcases List.nodup_cons.mp hnd with ⟨hx, hrest⟩
    cases v with
    | zero =>
      simp only [List.getD_cons_zero]
      rw [dictIndex, dictIndex_eq_none x rest (k + 1) hx]
      simp
    | succ v =>
      simp only [List.getD_cons_succ]
      rw [dictIndex, ih hrest v (k + 1) (by simpa using hv)]
      rw [show k + 1 + v = k + (v + 1) by omega]

/-- On a duplicate-free pool the dictionary inverts indexing. -/
theorem color_to_index_getD (pool : List RGB) (hnd : pool.Nodup) (v : ℕ)
    (hv : v < pool.length) : color_to_index pool (pool.getD v black) = v := by
  rw [color_to_index, dictIndex_nodup pool hnd v 0 hv]
  simp

/-- **C1** (amended).  Whenever the effective color pool has pairwise
distinct entries — which holds except when the fallback produced a
duplicate gray — every cell satisfies the consistency invariant:
`color_grid[i][j]` equals the color-pool index assigned to the site
`index_grid[i][j]`.  (With a duplicated pool color the string-keyed
`color_to_index` dictionary maps the shared color to its last pool
position, and the invariant fails; see the counterexample.) -/
theorem color_grid_matches_assignment (points : List (ℚ × ℚ)) (pool : List RGB)
    (a : List ℕ) (G i j : ℕ)
    (hnd : pool.Nodup) (hpts : points ≠ []) (hlen : a.length = points.length)
    (hmem : ∀ v ∈ a, v < pool.length) :
    color_grid points pool (a.map fun v => pool.getD v black) G i j
      = a.getD (index_grid points G i j) 0 := by
  have hne : points.map (fun p => dist2p p (sample_point G i j)) ≠ [] := by
    simpa using hpts
  have hr : index_grid points G i j < points.length := by
    have := (np_argmin_spec _ hne).1
    rwa [List.length_map] at this
  have hra : index_grid points G i j < a.length := by omega
  rw [color_grid, getD_map_eq a _ _ hra 0 black]
  exact color_to_index_getD pool hnd _ (hmem _ (getD_mem_of_lt a _ hra 0))

/-- Witness for C1 at a concrete duplicate-free pool. -/
theorem color_grid_matches_assignment_witness :
    color_grid [((0:ℚ), (0:ℚ)), (2, 0)] [black, white]
        ([1, 0].map fun v => [black, white].getD v black) 2 0 0
      = ([1, 0] : List ℕ).getD (index_grid [((0:ℚ), (0:ℚ)), (2, 0)] 2 0 0) 0 :=
  color_grid_matches_assignment [((0:ℚ), (0:ℚ)), (2, 0)] [black, white] [1, 0] 2 0 0
    (by decide) (by simp) (by simp) (by decide)

/-- Counterexample to C1 as frozen: with N = 4, effective K = 4 and a
candidate stream that always fails (every candidate equals black), the pool
is [black, white, gray, gray] — the documented fallback fired twice.  The
distributor assigns site 2 the pool index 2 (its color is gray), but the
string-keyed dict maps gray to its last pool position 3, so the cell whose
nearest site is 2 gets `color_grid = 3` while the assigned index is 2: the
claimed invariant `color_grid[i][j] = color_assignment[index_grid[i][j]]`
fails. -/
theorem color_grid_assignment_mismatch :
    build_color_pool (fun _ _ => black) 4 = [black, white, gray, gray] ∧
    color_assignment 4 4 [] = [0, 1, 2, 3] ∧
    index_grid [((9:ℚ), (9:ℚ)), (9, 1), (1, 1), (1, 9)] 300 0 0 = 2 ∧
    color_grid [((9:ℚ), (9:ℚ)), (9, 1), (1, 1), (1, 9)] [black, white, gray, gray]
        ([0, 1, 2, 3].map fun v => [black, white, gray, gray].getD v black) 300 0 0 = 3 ∧
    color_grid [((9:ℚ), (9:ℚ)), (9, 1), (1, 1), (1, 9)] [black, white, gray, gray]
        ([0, 1, 2, 3].map fun v => [black, white, gray, gray].getD v black) 300 0 0
      ≠ (color_assignment 4 4 []).getD
          (index_grid [((9:ℚ), (9:ℚ)), (9, 1), (1, 1), (1, 9)] 300 0 0) 0 := by
  have hgb : ¬ (gray = black) := by
    simp only [gray, black, RGB.mk.injEq, not_and]
    intro h
    norm_num at h
  have hgw : ¬ (gray = white) := by
    simp only [gray, white, RGB.mk.injEq, not_and]
    intro h
    norm_num at h
  have hpool : build_color_pool (fun _ _ => black) 4 = [black, white, gray, gray] := by
    rw [build_color_pool, show (4 - 2 : ℕ) = 2 from rfl,
      show List.range 2 = [0, 1] by decide]
    simp only [List.foldl_cons, List.foldl_nil]
    have h1 : tooClose black [black, white] = true := by
      norm_num [tooClose, dist2, black, white, threshold]
    rw [generate_unique_color_const_fail _ _ h1]
    have h2 : tooClose black ([black, white] ++ [gray]) = true := by
      norm_num [tooClose, dist2, black, white, threshold]
    rw [generate_unique_color_const_fail _ _ h2]
    rfl
  have hassign : color_assignment 4 4 [] = [0, 1, 2, 3] := by decide
  have hidx : index_grid [((9:ℚ), (9:ℚ)), (9, 1), (1, 1), (1, 9)] 300 0 0 = 2 := by
    have hsp : sample_point 300 0 0 = (0, 0) := by
      norm_num [sample_point, sample_x]
    rw [index_grid, hsp]
    norm_num [dist2p]
    norm_num [np_argmin, argminAux]
  have hcolors : ([0, 1, 2, 3].map fun v => [black, white, gray, gray].getD v black)
      = [black, white, gray, gray] := rfl
  have hdict : dictIndex [black, white, gray, gray] 0 gray = some 3 := by
    simp [dictIndex, hgb, hgw]
  have hcg : color_grid [((9:ℚ), (9:ℚ)), (9, 1), (1, 1), (1, 9)] [black, white, gray, gray]
      ([0, 1, 2, 3].map fun v => [black, white, gray, gray].getD v black) 300 0 0 = 3 := by
    rw [color_grid, hidx, hcolors]
    rw [show ([black, white, gray, gray].getD 2 black) = gray from rfl]
    rw [color_to_index, hdict]
    rfl
  refine ⟨hpool, hassign, hidx, hcg, ?_⟩
  rw [hcg, hidx, hassign]
  decide

/-! ### Helper lemmas: boundary extraction -/

theorem foldl_append_eq {α β : Type} (f : α → List β) :
    ∀ (l : List α) (acc : List β),
      l.foldl (fun a x => a ++ f x) acc = acc ++ l.flatMap f := by
  intro l
  induction l with
  | nil => intro acc; simp
  | cons x rest ih =>
    intro acc
    rw [List.foldl_cons, ih, List.flatMap_cons, List.append_assoc]

/-- The double boundary loop equals the row-major flat map over scanned
cells, horizontal check before vertical check within each cell. -/
theorem boundary_segments_eq (idx : ℕ → ℕ → ℕ) (G : ℕ) :
    boundary_segments idx G = (cells G).flatMap fun c => cell_segs idx G c.1 c.2 := by
  rw [boundary_segments, cells]
  have houter : (List.range (G-1)).foldl
      (fun acc i => (List.range (G-1)).foldl (fun acc2 j => acc2 ++ cell_segs idx G i j) acc)
      []
      = (List.range (G-1)).foldl
        (fun acc i => acc ++ (List.range (G-1)).flatMap (fun j => cell_segs idx G i j)) [] := by
    congr 1
    funext acc i
    exact foldl_append_eq _ _ acc
  rw [houter, foldl_append_eq, List.nil_append, List.flatMap_assoc]
  simp only [List.flatMap_map]

theorem mem_cells (G i j : ℕ) : (i, j) ∈ cells G ↔ i < G - 1 ∧ j < G - 1 := by
  simp only [cells, List.mem_flatMap, List.mem_map, List.mem_range, Prod.mk.injEq]
  constructor
  · rintro ⟨a, ha, b, hb, rfl, rfl⟩
    exact ⟨ha, hb⟩
  · rintro ⟨hi, hj⟩
    exact ⟨i, hi, j, hj, rfl, rfl⟩

/-- A flat map over pairwise-disjoint duplicate-free blocks is
duplicate-free. -/
theorem nodup_flatMap_of {α β : Type} (l : List α) (f : α → List β)
    (hl : l.Nodup) (hf : ∀ x ∈ l, (f x).Nodup)
    (hd : ∀ x ∈ l, ∀ y ∈ l, x ≠ y → ∀ b ∈ f x, b ∉ f y) :
    (l.flatMap f).Nodup := by
  induction l with
  | nil => simp
  | cons a rest ih =>
    rw [List.flatMap_cons]
    rcases List.nodup_cons.mp hl with ⟨ha, hrest⟩
    refine List.Nodup.append (hf a (by simp)) ?_ ?_
    · exact ih hrest (fun x hx => hf x (by simp [hx]))
        (fun x hx y hy hxy => hd x (by simp [hx]) y (by simp [hy]) hxy)
    · intro b hb hb'
      rw [List.mem_flatMap] at hb'
      obtain ⟨y, hy, hby⟩ := hb'
      have hay : a ≠ y := fun he => ha (he ▸ hy)
      exact hd a (by simp) y (by simp [hy]) hay b hb hby

theorem cells_nodup (G : ℕ) : (cells G).Nodup := by
  rw [cells]
  apply nodup_flatMap_of
  · exact List.nodup_range (G - 1)
  · intro i _
    refine (List.nodup_map_iff_inj_on (List.nodup_range (G - 1))).mpr ?_
    intro x _ y _ h
    exact (Prod.mk.injEq _ _ _ _ ▸ h).2
  · intro x _ y _ hxy b hbx hby
    simp only [List.mem_map] at hbx hby
    obtain ⟨jx, _, hjx⟩ := hbx
    obtain ⟨jy, _, hjy⟩ := hby
    rw [← hjx] at hjy
    exact hxy ((Prod.mk.injEq _ _ _ _ ▸ hjy).1.symm)

theorem cellWidth_ne_zero (G : ℕ) (hG : 2 ≤ G) : cellWidth G ≠ 0 := by
  rw [cellWidth]
  have hpos : (0:ℚ) < (G:ℚ) := by exact_mod_cast Nat.lt_of_lt_of_le (by omega) hG
  exact ne_of_gt (div_pos (by norm_num) hpos)

theorem anchor_inj (G : ℕ) (hG : 2 ≤ G) (i j i2 j2 : ℕ)
    (h : (((j:ℚ) * cellWidth G, (i:ℚ) * cellWidth G) : ℚ × ℚ)
      = ((j2:ℚ) * cellWidth G, (i2:ℚ) * cellWidth G)) : i = i2 ∧ j = j2 := by
  have hc := cellWidth_ne_zero G hG
  rw [Prod.mk.injEq] at h
  obtain ⟨h1, h2⟩ := h
  have hj : (j:ℚ) = (j2:ℚ) := mul_right_cancel₀ hc h1
  have hi : (i:ℚ) = (i2:ℚ) := mul_right_cancel₀ hc h2
  exact ⟨Nat.cast_injective hi, Nat.cast_injective hj⟩

theorem mem_cell_segs_iff (idx : ℕ → ℕ → ℕ) (G i j : ℕ) (s : Seg) :
    s ∈ cell_segs idx G i j ↔
      (idx i j ≠ idx i (j+1) ∧ s = hseg G i j) ∨
      (idx i j ≠ idx (i+1) j ∧ s = vseg G i j) := by
  rw [cell_segs]
  by_cases h1 : idx i j ≠ idx i (j+1) <;> by_cases h2 : idx i j ≠ idx (i+1) j <;>
    simp [h1, h2]

theorem mem_cell_segs_anchor (idx : ℕ → ℕ → ℕ) (G i j : ℕ) (s : Seg)
    (hs : s ∈ cell_segs idx G i j) :
    s.p1 = ((j:ℚ) * cellWidth G, (i:ℚ) * cellWidth G) := by
  rcases (mem_cell_segs_iff idx G i j s).mp hs with ⟨_, rfl⟩ | ⟨_, rfl⟩ <;> rfl

theorem hseg_ne_vseg (G : ℕ) (hG : 2 ≤ G) (i j i2 j2 : ℕ) :
    hseg G i j ≠ vseg G i2 j2 := by
  intro h
  have hc := cellWidth_ne_zero G hG
  rw [hseg, vseg, Seg.mk.injEq, Prod.mk.injEq, Prod.mk.injEq] at h
  obtain ⟨⟨h1a, _⟩, h2a, _⟩ := h
  rw [← h1a] at h2a
  have : (j:ℚ) + 1 = (j:ℚ) := mul_right_cancel₀ hc h2a
  linarith

theorem hseg_inj (G : ℕ) (hG : 2 ≤ G) (i j i2 j2 : ℕ)
    (h : hseg G i j = hseg G i2 j2) : i = i2 ∧ j = j2 := by
  rw [hseg, hseg, Seg.mk.injEq] at h
  exact anchor_inj G hG i j i2 j2 h.1

theorem vseg_inj (G : ℕ) (hG : 2 ≤ G) (i j i2 j2 : ℕ)
    (h : vseg G i j = vseg G i2 j2) : i = i2 ∧ j = j2 := by
  rw [vseg, vseg, Seg.mk.injEq] at h
  exact anchor_inj G hG i j i2 j2 h.1

theorem boundary_segments_nodup (idx : ℕ → ℕ → ℕ) (G : ℕ) (hG : 2 ≤ G) :
    (boundary_segments idx G).Nodup := by
  rw [boundary_segments_eq]
  apply nodup_flatMap_of
  · exact cells_nodup G
  · rintro ⟨i, j⟩ _
    simp only
    rw [cell_segs]
    by_cases h1 : idx i j ≠ idx i (j+1) <;> by_cases h2 : idx i j ≠ idx (i+1) j <;>
      simp [h1, h2, hseg_ne_vseg G hG]
  · rintro ⟨i, j⟩ _ ⟨i2, j2⟩ _ hne s hs hs2
    have ha := mem_cell_segs_anchor idx G i j s hs
    have ha2 := mem_cell_segs_anchor idx G i2 j2 s hs2
    rw [ha] at ha2
    obtain ⟨hi, hj⟩ := anchor_inj G hG i j i2 j2 ha2
    exact hne (by rw [hi, hj])

theorem mem_boundary_segments_iff (idx : ℕ → ℕ → ℕ) (G : ℕ) (s : Seg) :
    s ∈ boundary_segments idx G ↔
      ∃ i j, i < G - 1 ∧ j < G - 1 ∧
        ((idx i j ≠ idx i (j+1) ∧ s = hseg G i j) ∨
         (idx i j ≠ idx (i+1) j ∧ s = vseg G i j)) := by
  rw [boundary_segments_eq, List.mem_flatMap]
  constructor
  · rintro ⟨⟨i, j⟩, hc, hs⟩
    rw [mem_cells] at hc
    exact ⟨i, j, hc.1, hc.2, (mem_cell_segs_iff idx G i j s).mp hs⟩
  · rintro ⟨i, j, hi, hj, h⟩
    exact ⟨(i, j), (mem_cells G i j).mpr ⟨hi, hj⟩, (mem_cell_segs_iff idx G i j s).mpr h⟩

/-- **C4** (amended).  The boundary extractor scans exactly the cells
(i, j) with i < G−1, j < G−1, in row-major order with the horizontal check
before the vertical check per cell (first conjunct); the emitted list has
no duplicates; and a horizontal-pair (resp. vertical-pair) segment is
emitted exactly for the scanned pairs with differing `index_grid` values.
(The claim as frozen says *every* horizontally adjacent differing pair gets
a segment; the scan misses the horizontal pairs of the last row i = G−1 and
the vertical pairs of the last column j = G−1 — see the counterexample.) -/
theorem boundary_pair_coverage (idx : ℕ → ℕ → ℕ) (G : ℕ) (hG : 2 ≤ G) :
    boundary_segments idx G = (cells G).flatMap (fun c => cell_segs idx G c.1 c.2) ∧
    (boundary_segments idx G).Nodup ∧
    (∀ i j, hseg G i j ∈ boundary_segments idx G ↔
      (i < G - 1 ∧ j < G - 1 ∧ idx i j ≠ idx i (j+1))) ∧
    (∀ i j, vseg G i j ∈ boundary_segments idx G ↔
      (i < G - 1 ∧ j < G - 1 ∧ idx i j ≠ idx (i+1) j)) := by
  refine ⟨boundary_segments_eq idx G, boundary_segments_nodup idx G hG, ?_, ?_⟩
  · intro i j
    rw [mem_boundary_segments_iff]
    constructor
    · rintro ⟨i2, j2, hi2, hj2, ⟨hne, heq⟩ | ⟨hne, heq⟩⟩
      · obtain ⟨rfl, rfl⟩ := hseg_inj G hG i j i2 j2 heq
        exact ⟨hi2, hj2, hne⟩
      · exact absurd heq (hseg_ne_vseg G hG i j i2 j2)
    · rintro ⟨hi, hj, hne⟩
      exact ⟨i, j, hi, hj, Or.inl ⟨hne, rfl⟩⟩
  · intro i j
    rw [mem_boundary_segments_iff]
    constructor
    · rintro ⟨i2, j2, hi2, hj2, ⟨hne, heq⟩ | ⟨hne, heq⟩⟩
      · exact absurd heq.symm (hseg_ne_vseg G hG i2 j2 i j)
      · obtain ⟨rfl, rfl⟩ := vseg_inj G hG i j i2 j2 heq
        exact ⟨hi2, hj2, hne⟩
    · rintro ⟨hi, hj, hne⟩
      exact ⟨i, j, hi, hj, Or.inr ⟨hne, rfl⟩⟩

/-- Witness for C4 at G = 3 with `index_grid` value j (columns all
differ). -/
theorem boundary_pair_coverage_witness :
    boundary_segments (fun _ j => j) 3
      = (cells 3).flatMap (fun c => cell_segs (fun _ j => j) 3 c.1 c.2) ∧
    (boundary_segments (fun _ j => j) 3).Nodup ∧
    (∀ i j, hseg 3 i j ∈ boundary_segments (fun _ j => j) 3 ↔
      (i < 3 - 1 ∧ j < 3 - 1 ∧ j ≠ j + 1)) ∧
    (∀ i j, vseg 3 i j ∈ boundary_segments (fun _ j => j) 3 ↔
      (i < 3 - 1 ∧ j < 3 - 1 ∧ j ≠ j)) :=
  boundary_pair_coverage (fun _ j => j) 3 (by norm_num)

/-- Counterexample to C4 as frozen: in a 2×2 grid where all four cells have
distinct `index_grid` values, the pair (1,0),(1,1) is horizontally adjacent
with differing values, yet the complete output consists of the two segments
of cell (0,0) only — no segment is emitted for any pair of the last row or
last column, so "one segment for every horizontally (vertically) adjacent
differing pair" fails. -/
theorem boundary_last_row_missed :
    (2 * 1 + 0 ≠ 2 * 1 + 1) ∧
    boundary_segments (fun i j => 2 * i + j) 2 = [hseg 2 0 0, vseg 2 0 0] ∧
    hseg 2 1 0 ∉ [hseg 2 0 0, vseg 2 0 0] := by
  refine ⟨by omega, ?_, ?_⟩
  · rfl
  · intro hmem
    rcases List.mem_cons.mp hmem with heq | hmem2
    · exact absurd (hseg_inj 2 (by norm_num) 1 0 0 0 heq).1 (by omega)
    · rcases List.mem_cons.mp hmem2 with heq | h
      · exact absurd heq (hseg_ne_vseg 2 (by norm_num) 1 0 0 0)
      · simp at h

/-- **C5** (amended).  Every emitted segment belongs to a scanned differing
pair and is anchored at `(j*dx, i*dy)` with `dx = dy = 10/G`, running one
step of length `10/G` *parallel* to the adjacency direction (horizontal
segment for a horizontally adjacent pair, vertical for a vertical pair) —
not along the shared cell edge, which would be perpendicular.  The
classifier samples evenly spaced inclusive of both bounds, so its spacing
is `10/(G−1)`, which differs from the `10/G` used for segment endpoints.
(The claim as frozen asserts the segment lies along the shared edge and
that `width/G` is the classifier sample spacing; both fail — see the
counterexample.) -/
theorem boundary_segment_geometry (idx : ℕ → ℕ → ℕ) (G : ℕ) (hG : 2 ≤ G) :
    (∀ s ∈ boundary_segments idx G, ∃ i j, i < G - 1 ∧ j < G - 1 ∧
      ((idx i j ≠ idx i (j+1) ∧ s = hseg G i j ∧ s.p1.2 = s.p2.2 ∧
        s.p2.1 - s.p1.1 = cellWidth G) ∨
       (idx i j ≠ idx (i+1) j ∧ s = vseg G i j ∧ s.p1.1 = s.p2.1 ∧
        s.p2.2 - s.p1.2 = cellWidth G))) ∧
    cellWidth G = 10 / (G:ℚ) ∧
    sample_x G 0 = 0 ∧
    sample_x G (G - 1) = 10 ∧
    (∀ j, sample_x G (j + 1) - sample_x G j = 10 / ((G:ℚ) - 1)) ∧
    cellWidth G ≠ 10 / ((G:ℚ) - 1) := by
  have hg0 : (0:ℚ) < (G:ℚ) := by exact_mod_cast Nat.lt_of_lt_of_le (by omega) hG
  have hg1 : ((G:ℚ) - 1) ≠ 0 := by
    have : (1:ℚ) < (G:ℚ) := by exact_mod_cast Nat.lt_of_lt_of_le (by omega) hG
    intro h
    rw [sub_eq_zero] at h
    rw [← h] at this
    exact absurd this (by norm_num)
  refine ⟨?_, rfl, ?_, ?_, ?_, ?_⟩
  · intro s hs
    obtain ⟨i, j, hi, hj, h⟩ := (mem_boundary_segments_iff idx G s).mp hs
    refine ⟨i, j, hi, hj, ?_⟩
    rcases h with ⟨hne, rfl⟩ | ⟨hne, rfl⟩
    · refine Or.inl ⟨hne, rfl, rfl, ?_⟩
      rw [hseg]
      ring
    · refine Or.inr ⟨hne, rfl, rfl, ?_⟩
      rw [vseg]
      ring
  · rw [sample_x]
    norm_num
  · rw [sample_x]
    have hcast : ((G - 1 : ℕ) : ℚ) = (G:ℚ) - 1 := by
      have : (1:ℕ) ≤ G := by omega
      push_cast [this]
      ring
    rw [hcast]
    field_simp
  · intro j
    rw [sample_x, sample_x]
    push_cast
    field_simp
    ring
  · rw [cellWidth]
    intro h
    rw [div_eq_div_iff (ne_of_gt hg0) hg1] at h
    nlinarith [h]

/-- Witness for C5 at G = 4 with `index_grid` value j. -/
theorem boundary_segment_geometry_witness :
    (∀ s ∈ boundary_segments (fun _ j => j) 4, ∃ i j, i < 4 - 1 ∧ j < 4 - 1 ∧
      ((j ≠ j + 1 ∧ s = hseg 4 i j ∧ s.p1.2 = s.p2.2 ∧
        s.p2.1 - s.p1.1 = cellWidth 4) ∨
       (j ≠ j ∧ s = vseg 4 i j ∧ s.p1.1 = s.p2.1 ∧
        s.p2.2 - s.p1.2 = cellWidth 4))) ∧
    cellWidth 4 = 10 / ((4:ℕ):ℚ) ∧
    sample_x 4 0 = 0 ∧
    sample_x 4 (4 - 1) = 10 ∧
    (∀ j, sample_x 4 (j + 1) - sample_x 4 j = 10 / (((4:ℕ):ℚ) - 1)) ∧
    cellWidth 4 ≠ 10 / (((4:ℕ):ℚ) - 1) :=
  boundary_segment_geometry (fun _ j => j) 4 (by norm_num)

/-- Counterexample to C5 as frozen: at G = 4 with `index_grid` value j, the
cells (0,0) and (0,1) are horizontally adjacent with differing values;
their shared grid edge under the classifier sample layout is a piece of the
vertical line x = (x₀ + x₁)/2 = 5/3, but the emitted segment for the pair
is horizontal (constant y, two distinct x values, neither equal to 5/3),
and the classifier sample spacing 10/3 differs from the dx = 10/4 used to
place segment endpoints. -/
theorem boundary_not_on_shared_edge :
    hseg 4 0 0 ∈ boundary_segments (fun _ j => j) 4 ∧
    (hseg 4 0 0).p1.2 = (hseg 4 0 0).p2.2 ∧
    (hseg 4 0 0).p1.1 ≠ (hseg 4 0 0).p2.1 ∧
    sample_x 4 1 - sample_x 4 0 ≠ cellWidth 4 ∧
    (hseg 4 0 0).p1.1 ≠ (sample_x 4 0 + sample_x 4 1) / 2 ∧
    (hseg 4 0 0).p2.1 ≠ (sample_x 4 0 + sample_x 4 1) / 2 := by
  refine ⟨?_, rfl, ?_, ?_, ?_, ?_⟩
  · exact (mem_boundary_segments_iff (fun _ j => j) 4 (hseg 4 0 0)).mpr
      ⟨0, 0, by norm_num, by norm_num, Or.inl ⟨by omega, rfl⟩⟩
  · norm_num [hseg, cellWidth]
  · norm_num [sample_x, cellWidth]
  · norm_num [hseg, sample_x, cellWidth]
  · norm_num [hseg, sample_x, cellWidth]

/-- **C9** (amended).  The regenerate path contains no parameter
validation and defines no `InvalidParameterError`: for any positive
`num_sites` and `num_colors` — including values outside the documented
ranges [2,100] and [2,20], which only the GUI sliders enforce — the
computation runs to completion and publishes complete outputs: a color
assignment of length `num_sites` and the pool variable, whose first two
entries are black and white and whose length is at least 2. -/
theorem regenerate_no_validation (N K : ℕ) (rand : ℕ → ℕ → RGB) (extra : List ℕ)
    (hN : 0 < N) (hK : 0 < K)
    (hnd : extra.Nodup) (hlen : extra.length = N % effective_colors N K)
    (hmem : ∀ i ∈ extra, i < effective_colors N K) :
    (regenerate N K rand extra).2.length = N ∧
    2 ≤ (regenerate N K rand extra).1.length ∧
    (regenerate N K rand extra).1.getD 0 black = black ∧
    (regenerate N K rand extra).1.getD 1 black = white := by
  have hK2 : 0 < effective_colors N K := lt_min hK hN
  have hle : effective_colors N K ≤ N := min_le_right K N
  obtain ⟨hl, _, _, _, _⟩ := distribution_counts N (effective_colors N K) extra
    (color_assignment N (effective_colors N K) extra) hK2 hle hnd hlen hmem
    (List.Perm.refl _)
  have hbase : ∀ j, 2 ≤ j → j < ([black, white] : List RGB).length →
      pool_entry_ok [black, white] j := by
    intro j hj2 hj
    simp at hj
    omega
  obtain ⟨hplen, hstable, _⟩ :=
    build_foldl_invariant rand (List.range (effective_colors N K - 2)) [black, white] hbase
  refine ⟨hl, ?_, ?_, ?_⟩
  · show 2 ≤ (build_color_pool rand (effective_colors N K)).length
    rw [build_color_pool, hplen]
    simp
  · show (build_color_pool rand (effective_colors N K)).getD 0 black = black
    rw [build_color_pool, hstable 0 (by simp)]
    rfl
  · show (build_color_pool rand (effective_colors N K)).getD 1 black = white
    rw [build_color_pool, hstable 1 (by simp)]
    rfl

/-- Witness for C9 at the out-of-range input num_sites = 1 (below the
documented minimum 2): the pipeline still publishes outputs. -/
theorem regenerate_no_validation_witness :
    (regenerate 1 2 (fun _ _ => black) []).2.length = 1 ∧
    2 ≤ (regenerate 1 2 (fun _ _ => black) []).1.length ∧
    (regenerate 1 2 (fun _ _ => black) []).1.getD 0 black = black ∧
    (regenerate 1 2 (fun _ _ => black) []).1.getD 1 black = white :=
  regenerate_no_validation 1 2 (fun _ _ => black) [] (by norm_num) (by norm_num)
    (by decide) (by decide) (by decide)

/-- Counterexample to C9 as frozen: invoked with num_sites = 1, which is
outside [2,100], the pipeline neither raises nor aborts — there is no
`InvalidParameterError` anywhere in the program — and it publishes full
outputs: the pool variable [black, white] and the one-entry color
assignment [0] (num_colors having been silently clamped to 1). -/
theorem regenerate_accepts_invalid_params :
    ¬ (2 ≤ 1) ∧ regenerate 1 2 (fun _ _ => black) [] = ([black, white], [0]) :=
  ⟨by omega, rfl⟩
